import Mathlib

/-!
Verification of the ledger-record core of the `thor` repository: the
`Transaction` type (`src/tx/transaction.go`) and the `Block` type
(`src/block/block.go`), shallowly embedded in Lean 4.

Modelling conventions:
* Go byte slices are `List Nat` (each element a byte value).
* Go `uint64` fields are `Nat` together with a well-formedness predicate
  bounding them by `2 ^ 64`; `*big.Int` values that the code keeps
  non-negative are `Nat`; the intrinsic-gas accumulator, which the code
  keeps in a signed `big.Int`, is `Int`.
* The canonical (RLP) encoder is embedded at two levels: a tree of items
  (`Item`: byte strings and lists), which is what the repository's
  `EncodeRLP`/`DecodeRLP` glue manipulates, and the flat byte serialization
  `serialize` of an item, used for hashing and sizes.
* The streaming 256-bit hash is an external primitive; operations that
  consume it are parameterized by an arbitrary function `H` from byte
  sequences to 32-byte hashes.
-/

namespace Thor

/-- A 256-bit hash value: 32 bytes. -/
abbrev Hash256 := { l : List Nat // l.length = 32 }

/-- A 160-bit address: 20 bytes. -/
abbrev Address := { l : List Nat // l.length = 20 }

/-! ### Canonical-encoding items

The external canonical encoder works over byte strings and ordered lists;
optional-by-absence fields are encoded as the empty byte string. -/

/-- An RLP item: a byte string or an ordered list of items. -/
inductive Item where
  | bytes (bs : List Nat) : Item
  | list (items : List Item) : Item

mutual

/-- Decidable equality on items. -/
def Item.decEq : (a b : Item) → Decidable (a = b)
  | .bytes a, .bytes b =>
      if h : a = b then .isTrue (by rw [h]) else .isFalse (by simp [h])
  | .list a, .list b =>
      match Item.decEqList a b with
      | .isTrue h => .isTrue (by rw [h])
      | .isFalse h => .isFalse (by simpa using h)
  | .bytes _, .list _ => .isFalse (by simp)
  | .list _, .bytes _ => .isFalse (by simp)

/-- Decidable equality on item lists. -/
def Item.decEqList : (a b : List Item) → Decidable (a = b)
  | [], [] => .isTrue rfl
  | a :: as, b :: bs =>
      match Item.decEq a b, Item.decEqList as bs with
      | .isTrue h1, .isTrue h2 => .isTrue (by rw [h1, h2])
      | .isFalse h1, _ => .isFalse (by simp [h1])
      | _, .isFalse h2 => .isFalse (by simp [h2])
  | [], _ :: _ => .isFalse (by simp)
  | _ :: _, [] => .isFalse (by simp)

end

instance : DecidableEq Item := Item.decEq

/-- Fuelled worker for `natToBE`; structural recursion on the fuel keeps
the definition kernel-reducible.  The fuel is never exhausted when it
starts at the number itself. -/
def natToBEFuel : Nat → Nat → List Nat
  | _, 0 => []
  | 0, _ + 1 => []
  | fuel + 1, n + 1 => natToBEFuel fuel ((n + 1) / 256) ++ [(n + 1) % 256]

/-- Minimal big-endian byte representation of a natural number
(the canonical integer encoding: no leading zero bytes, `0 ↦ []`). -/
def natToBE (n : Nat) : List Nat := natToBEFuel n n

/-- Fuelled worker for `bitLen`; see `natToBEFuel`. -/
def bitLenFuel : Nat → Nat → Nat
  | _, 0 => 0
  | 0, _ + 1 => 0
  | fuel + 1, n + 1 => bitLenFuel fuel ((n + 1) / 2) + 1

/-- The bit length of a natural number (`big.Int.BitLen` of its absolute
value): `0 ↦ 0`, otherwise one more than the bit length of the half. -/
def bitLen (n : Nat) : Nat := bitLenFuel n n

/-- Big-endian byte list to natural number. -/
def beToNat (l : List Nat) : Nat :=
  l.foldl (fun acc d => acc * 256 + d) 0

/-- Decode a canonical `uint64`: at most 8 bytes, no leading zero byte. -/
def decU64 (l : List Nat) : Option Nat :=
  if l.length ≤ 8 ∧ (l = [] ∨ l.head? ≠ some 0) then some (beToNat l) else none

/-- Decode a canonical non-negative big integer: no leading zero byte. -/
def decBig (l : List Nat) : Option Nat :=
  if l = [] ∨ l.head? ≠ some 0 then some (beToNat l) else none

/-! ### Gas-schedule constants

`params.TxGas`, `params.TxGasContractCreation`, `params.TxDataZeroGas` and
`params.TxDataNonZeroGas` are the standard Ethereum gas-schedule constants
consumed from the external `params` package. -/

def txGas : Nat := 21000
def txGasContractCreation : Nat := 53000
def txDataZeroGas : Nat := 4
def txDataNonZeroGas : Nat := 68

/-- Modelled from the spec: the per-clause base costs `thor.ClauseGas` and
`thor.ClauseGasContractCreation` live in the repository's `thor` package,
which is not among the provided sources.  The spec describes them as the
"reduced per-clause call cost" (resp. creation cost), strictly smaller than
the transaction-level base costs; the protocol's schedule sets them 5000
below the transaction-level constants. -/
def clauseGas : Nat := txGas - 5000

/-- Modelled from the spec: reduced per-clause contract-creation cost; see
`clauseGas`. -/
def clauseGasContractCreation : Nat := txGasContractCreation - 5000

/-- `core.IntrinsicGas(data, contractCreation, homestead)` from the external
`core` package, specialized to `homestead = true` as the repository always
passes: flat base cost (creation or call) plus per-byte data costs
(non-zero bytes cost more than zero bytes). -/
def coreIntrinsicGas (data : List Nat) (contractCreation : Bool) : Nat :=
  (if contractCreation then txGasContractCreation else txGas)
    + (data.filter (fun b => b ≠ 0)).length * txDataNonZeroGas
    + (data.length - (data.filter (fun b => b ≠ 0)).length) * txDataZeroGas

/-! ### Clause -/

/-- Modelled from the spec: the `Clause` value type lives in the
repository's `tx` package but its file is not among the provided sources.
The spec gives its consumed contract: an optional recipient (absence
signals contract creation), a non-negative value, and a data payload. -/
structure Clause where
  To : Option Address
  value : Nat
  data : List Nat
deriving DecidableEq

/-! ### Transaction -/

/-- The `body` struct of `Transaction`: the seven logically-identifying
fields, in canonical encoding order. -/
structure TxBody where
  clauses : List Clause
  gasPrice : Nat
  gas : Nat
  nonce : Nat
  timeBarrier : Nat
  dependsOn : Option Hash256
  signature : List Nat
deriving DecidableEq

/-- `Transaction`: an immutable body plus a lazily-populated hash cache
(the cache is excluded from logical identity). -/
structure Transaction where
  body : TxBody
  cacheHash : Option Hash256 := none
deriving DecidableEq

/-- Width bounds of the Go `uint64` fields of a transaction body. -/
def TxBody.WF (b : TxBody) : Prop :=
  b.gas < 2 ^ 64 ∧ b.nonce < 2 ^ 64 ∧ b.timeBarrier < 2 ^ 64

instance (b : TxBody) : Decidable b.WF := by unfold TxBody.WF; infer_instance

def Transaction.WF (t : Transaction) : Prop := t.body.WF

instance (t : Transaction) : Decidable t.WF := by
  unfold Transaction.WF; infer_instance

/-- Logical equality of transactions: bodies agree; caches are irrelevant. -/
def Transaction.LogicalEq (a b : Transaction) : Prop := a.body = b.body

instance (a b : Transaction) : Decidable (a.LogicalEq b) := by
  unfold Transaction.LogicalEq; infer_instance

/-- `WithSignature`: a new transaction sharing the unsigned fields, with the
signature replaced and a fresh (empty) cache; the receiver is untouched. -/
def Transaction.withSignature (t : Transaction) (sig : List Nat) : Transaction :=
  { body := { t.body with signature := sig }, cacheHash := none }

/-! ### Intrinsic gas -/

/-- The transaction-level-minus-clause-level base-cost discount subtracted
for each clause after the first (`TxGasContractCreation -
ClauseGasContractCreation` for creation clauses, `TxGas - ClauseGas`
otherwise). -/
def clauseDiscount (c : Clause) : Nat :=
  if c.To.isNone then txGasContractCreation - clauseGasContractCreation
  else txGas - clauseGas

/-- One accumulation step of `IntrinsicGas` for a clause after the first:
add the clause's own intrinsic gas, then subtract the discount. -/
def intrinsicStep (acc : Int) (c : Clause) : Int :=
  acc + coreIntrinsicGas c.data c.To.isNone - clauseDiscount c

/-- The arbitrary-precision total accumulated by `IntrinsicGas`
(for the empty-clause early return, the flat `txGas`). -/
def intrinsicGasTotal (t : Transaction) : Int :=
  match t.body.clauses with
  | [] => (txGas : Int)
  | first :: rest =>
      rest.foldl intrinsicStep (coreIntrinsicGas first.data first.To.isNone)

/-- `Transaction.IntrinsicGas`: empty clause list returns the flat
`params.TxGas`; otherwise the first clause pays full intrinsic gas and each
subsequent clause pays its own intrinsic gas minus the base-cost discount;
a total of more than 64 bits is an error, otherwise it is narrowed to
`uint64`. -/
def Transaction.intrinsicGas (t : Transaction) : Except String Nat :=
  match t.body.clauses with
  | [] => .ok txGas
  | first :: rest =>
      let total : Int :=
        rest.foldl intrinsicStep (coreIntrinsicGas first.data first.To.isNone)
      if 64 < bitLen total.natAbs then .error "intrinsic gas too large"
      else .ok total.natAbs

/-! ### Canonical encoding of transactions

Field-level encoders follow the `rlp` struct rules used by the source:
unsigned integers and big integers are minimal big-endian byte strings,
byte slices are byte strings, a `rlp:"nil"`-tagged optional pointer encodes
absence as an empty value, and a struct is the ordered list of its fields.
Decoders enforce the same canonicality the `rlp` package enforces
(no leading zero byte, at most 8 bytes for `uint64`, exact byte lengths
for fixed-size arrays, exact field counts for structs). -/

/-- Encode an optional 20-byte address (`rlp:"nil"`): absence is the empty
byte string. -/
def encOptAddr : Option Address → Item
  | none => .bytes []
  | some a => .bytes a.val

/-- Decode an optional 20-byte address: an empty value is absence, a
20-byte string is an address, anything else is malformed. -/
def decOptAddr : Item → Option (Option Address)
  | .bytes [] => some none
  | .list [] => some none
  | .bytes l => if h : l.length = 20 then some (some ⟨l, h⟩) else none
  | .list (_ :: _) => none

/-- Encode an optional 32-byte hash (`rlp:"nil"`): absence is the empty
byte string. -/
def encOptHash : Option Hash256 → Item
  | none => .bytes []
  | some h => .bytes h.val

/-- Decode an optional 32-byte hash: an empty value is absence, a 32-byte
string is a hash, anything else is malformed. -/
def decOptHash : Item → Option (Option Hash256)
  | .bytes [] => some none
  | .list [] => some none
  | .bytes l => if h : l.length = 32 then some (some ⟨l, h⟩) else none
  | .list (_ :: _) => none

/-- Encode a clause as the ordered list of its fields. -/
def encClause (c : Clause) : Item :=
  .list [encOptAddr c.To, .bytes (natToBE c.value), .bytes c.data]

/-- Decode a clause: exactly three fields in order. -/
def decClause : Item → Option Clause
  | .list [toItem, .bytes v, .bytes d] =>
      match decOptAddr toItem, decBig v with
      | some recipient, some value => some ⟨recipient, value, d⟩
      | _, _ => none
  | _ => none

/-- Decode a list of clauses element-wise; any malformed element fails the
whole list. -/
def decClauses : List Item → Option (List Clause)
  | [] => some []
  | i :: rest =>
      match decClause i, decClauses rest with
      | some c, some cs => some (c :: cs)
      | _, _ => none

/-- Encode a transaction body: the canonical order
`[clauses, gas_price, gas, nonce, time_barrier, depends_on, signature]`. -/
def encTxBody (b : TxBody) : Item :=
  .list [.list (b.clauses.map encClause),
         .bytes (natToBE b.gasPrice),
         .bytes (natToBE b.gas),
         .bytes (natToBE b.nonce),
         .bytes (natToBE b.timeBarrier),
         encOptHash b.dependsOn,
         .bytes b.signature]

/-- Decode a transaction body: exactly seven fields in canonical order. -/
def decTxBody : Item → Option TxBody
  | .list [.list clauseItems, .bytes gp, .bytes g, .bytes n, .bytes tb,
           dep, .bytes sig] =>
      match decClauses clauseItems, decBig gp, decU64 g, decU64 n,
            decU64 tb, decOptHash dep with
      | some clauses, some gasPrice, some gas, some nonce,
        some timeBarrier, some dependsOn =>
          some ⟨clauses, gasPrice, gas, nonce, timeBarrier, dependsOn, sig⟩
      | _, _, _, _, _, _ => none
  | _ => none

/-- `Transaction.EncodeRLP`: encodes the body. -/
def Transaction.encodeItem (t : Transaction) : Item := encTxBody t.body

/-- Decoding a transaction from an item: a fresh value with an empty cache,
or failure. -/
def Transaction.decodeItem (i : Item) : Option Transaction :=
  (decTxBody i).map fun b => { body := b, cacheHash := none }

/-- `Transaction.DecodeRLP` as a receiver-state transformer: the input is
decoded into a fresh temporary body; only on success is the receiver
overwritten (with a reset cache), otherwise the error is returned and the
receiver is left as it was. -/
def Transaction.decodeRLP (t : Transaction) (i : Item) :
    Transaction × Option String :=
  match decTxBody i with
  | some b => ({ body := b, cacheHash := none }, none)
  | none => (t, some "rlp: decode error")

/-! ### Flat byte serialization of items -/

/-- Length prefix of the flat RLP layout: `base + len` for short payloads,
otherwise `base + 55 +` the byte count of the length, followed by the
big-endian length. -/
def lengthPrefix (base len : Nat) : List Nat :=
  if len ≤ 55 then [base + len]
  else (base + 55 + (natToBE len).length) :: natToBE len

/-- Flat serialization of a byte string: a single byte below `0x80` is its
own encoding; otherwise a `0x80`-based length prefix then the bytes. -/
def encodeBytesRLP (bs : List Nat) : List Nat :=
  match bs with
  | [b] => if b < 128 then [b] else lengthPrefix 128 1 ++ [b]
  | _ => lengthPrefix 128 bs.length ++ bs

mutual

/-- Flat serialization of an item (the bytes the canonical encoder writes). -/
def serialize : Item → List Nat
  | .bytes bs => encodeBytesRLP bs
  | .list items => lengthPrefix 192 (serializeList items).length ++ serializeList items

/-- Flat serialization of a list payload: concatenation of the elements. -/
def serializeList : List Item → List Nat
  | [] => []
  | i :: rest => serialize i ++ serializeList rest

end

/-- Byte count of a serialized byte string, computed without materializing
the bytes. -/
def countBytesRLP (bs : List Nat) : Nat :=
  match bs with
  | [b] => if b < 128 then 1 else 2
  | _ => (if bs.length ≤ 55 then 1 else 1 + (natToBE bs.length).length) + bs.length

mutual

/-- Byte count of a serialized item, computed by counting writes rather
than materializing them (the `counterWriter` sink). -/
def serializeCount : Item → Nat
  | .bytes bs => countBytesRLP bs
  | .list items =>
      (if serializeCountList items ≤ 55 then 1
       else 1 + (natToBE (serializeCountList items)).length) + serializeCountList items

/-- Byte count of a serialized list payload. -/
def serializeCountList : List Item → Nat
  | [] => 0
  | i :: rest => serializeCount i + serializeCountList rest

end

/-! ### Hashing -/

/-- `Transaction.SigningHash`: the item holding exactly the ordered tuple
`[clauses, gas_price, gas, nonce, time_barrier, depends_on]` — the
signature is excluded. -/
def Transaction.signingItem (t : Transaction) : Item :=
  .list [.list (t.body.clauses.map encClause),
         .bytes (natToBE t.body.gasPrice),
         .bytes (natToBE t.body.gas),
         .bytes (natToBE t.body.nonce),
         .bytes (natToBE t.body.timeBarrier),
         encOptHash t.body.dependsOn]

/-- `Transaction.SigningHash`, parameterized by the external streaming hash
primitive `H`. -/
def Transaction.signingHash (H : List Nat → Hash256) (t : Transaction) : Hash256 :=
  H (serialize t.signingItem)

/-- `Transaction.Hash`, parameterized by the external hash primitive: the
hash of the full canonical encoding (signature included); the cache, when
populated, holds exactly this value. -/
def Transaction.hash (H : List Nat → Hash256) (t : Transaction) : Hash256 :=
  match t.cacheHash with
  | some h => h
  | none => H (serialize t.encodeItem)

/-! ### Block -/

/-- Modelled from the spec: the `Header` type lives in the repository's
`block` package but its file is not among the provided sources.  The spec
gives its consumed contract only: an opaque aggregate that participates in
the canonical encoder/decoder and supports signature replacement.  It is
modelled as an opaque unsigned payload plus a signature, encoded as the
ordered pair of the two. -/
structure Header where
  payload : List Nat
  signature : List Nat
deriving DecidableEq

/-- Modelled from the spec: `Header.withSignature` replaces only the
signature. -/
def Header.withSignature (h : Header) (sig : List Nat) : Header :=
  { h with signature := sig }

/-- Modelled from the spec: canonical encoding of a header. -/
def encHeader (h : Header) : Item :=
  .list [.bytes h.payload, .bytes h.signature]

/-- Modelled from the spec: canonical decoding of a header. -/
def decHeader : Item → Option Header
  | .list [.bytes p, .bytes s] => some ⟨p, s⟩
  | _ => none

/-- `Block`: an immutable header plus ordered transactions, with a
lazily-populated size cache (excluded from logical identity). -/
structure Block where
  header : Header
  txs : List Transaction
  cacheSize : Option Nat := none
deriving DecidableEq

/-- `Compose`: build a block from already-assembled parts (the transaction
sequence is copied defensively; header/body consistency is not checked). -/
def Block.compose (header : Header) (txs : List Transaction) : Block :=
  { header := header, txs := txs, cacheSize := none }

/-- `Block.WithSignature`: a new block sharing the transaction sequence,
with the header's signature replaced and a fresh (empty) size cache. -/
def Block.withSignature (b : Block) (sig : List Nat) : Block :=
  { header := b.header.withSignature sig, txs := b.txs, cacheSize := none }

/-- `Block.EncodeRLP`: the canonical pair `[header, transactions]`. -/
def Block.encodeItem (b : Block) : Item :=
  .list [encHeader b.header, .list (b.txs.map Transaction.encodeItem)]

/-- Decode a list of transactions element-wise. -/
def decTxs : List Item → Option (List Transaction)
  | [] => some []
  | i :: rest =>
      match Transaction.decodeItem i, decTxs rest with
      | some t, some ts => some (t :: ts)
      | _, _ => none

/-- Decoding a block from an item: exactly the pair
`[header, transactions]`, yielding a fresh value with an empty cache. -/
def Block.decodeItem : Item → Option Block
  | .list [headerItem, .list txItems] =>
      match decHeader headerItem, decTxs txItems with
      | some h, some ts => some { header := h, txs := ts, cacheSize := none }
      | _, _ => none
  | _ => none

/-- `Block.DecodeRLP` as a receiver-state transformer: decode into a fresh
temporary payload; only on success is the receiver overwritten, otherwise
the error is returned and the receiver is left as it was. -/
def Block.decodeRLP (b : Block) (i : Item) : Block × Option String :=
  match Block.decodeItem i with
  | some b' => (b', none)
  | none => (b, some "rlp: decode error")

/-- Logical equality of blocks: headers agree and the transactions agree
body-wise; the caches (the block's size cache and each transaction's hash
cache) are irrelevant. -/
def Block.LogicalEq (a b : Block) : Prop :=
  a.header = b.header ∧ a.txs.map Transaction.body = b.txs.map Transaction.body

/-- `Block.Size`: the cached size if populated, otherwise the byte count of
the block's own canonical encoding obtained through the counting sink. -/
def Block.size (b : Block) : Nat :=
  match b.cacheSize with
  | some n => n
  | none => serializeCount b.encodeItem

/-- The size cache, when populated, holds the value `Size` would compute
(the only value the code ever stores in it). -/
def Block.SizeCacheValid (b : Block) : Prop :=
  ∀ n, b.cacheSize = some n → n = serializeCount b.encodeItem

/-- Well-formedness of a block: every contained transaction is
well-formed. -/
def Block.WF (b : Block) : Prop := ∀ t ∈ b.txs, t.WF

instance (b : Block) : Decidable b.WF := by
  unfold Block.WF; infer_instance

/-! ### Sample values for concrete instantiations -/

/-- A trivial instantiation of the external hash primitive, used to
instantiate hash-parametric statements at concrete inputs. -/
def constHash : List Nat → Hash256 := fun _ => ⟨List.replicate 32 0, by simp⟩

/-- A sample 20-byte address. -/
def sampleAddress : Address := ⟨List.replicate 20 17, by simp⟩

/-- A sample non-creation clause with empty data. -/
def sampleClause : Clause := ⟨some sampleAddress, 0, []⟩

/-- A sample transaction with the given clauses. -/
def sampleTx (cs : List Clause) : Transaction :=
  ⟨⟨cs, 1, 5, 6, 7, none, [1, 2]⟩, none⟩

/-- A sample block. -/
def sampleBlock : Block := ⟨⟨[10, 11], [12]⟩, [sampleTx [sampleClause]], none⟩

/-! ### Properties of the canonical integer byte encoding -/

theorem natToBEFuel_zero (f : Nat) : natToBEFuel f 0 = [] := by
  cases f <;> rfl

theorem natToBEFuel_congr :
    ∀ f₁ f₂ n : Nat, n ≤ f₁ → n ≤ f₂ → natToBEFuel f₁ n = natToBEFuel f₂ n := by
  intro f₁
  induction f₁ using Nat.strong_induction_on with
  | _ f₁ ih =>
    intro f₂ n h₁ h₂
    cases n with
    | zero => rw [natToBEFuel_zero, natToBEFuel_zero]
    | succ m =>
      cases f₁ with
      | zero => exact absurd h₁ (by omega)
      | succ g₁ =>
        cases f₂ with
        | zero => exact absurd h₂ (by omega)
        | succ g₂ =>
          show natToBEFuel g₁ ((m + 1) / 256) ++ _
            = natToBEFuel g₂ ((m + 1) / 256) ++ _
          have hlt : (m + 1) / 256 < m + 1 :=
            Nat.div_lt_self (Nat.succ_pos m) (by norm_num)
          rw [ih g₁ (by omega) g₂ ((m + 1) / 256) (by omega) (by omega)]

theorem natToBE_pos (n : Nat) (h : 0 < n) :
    natToBE n = natToBE (n / 256) ++ [n % 256] := by
  match n, h with
  | m + 1, _ =>
      show natToBEFuel m ((m + 1) / 256) ++ _ = _
      have hlt : (m + 1) / 256 < m + 1 :=
        Nat.div_lt_self (Nat.succ_pos m) (by norm_num)
      rw [natToBE,
          natToBEFuel_congr m ((m + 1) / 256) ((m + 1) / 256) (by omega) le_rfl]

theorem natToBE_zero : natToBE 0 = [] := rfl

theorem bitLenFuel_zero (f : Nat) : bitLenFuel f 0 = 0 := by
  cases f <;> rfl

theorem bitLenFuel_congr :
    ∀ f₁ f₂ n : Nat, n ≤ f₁ → n ≤ f₂ → bitLenFuel f₁ n = bitLenFuel f₂ n := by
  intro f₁
  induction f₁ using Nat.strong_induction_on with
  | _ f₁ ih =>
    intro f₂ n h₁ h₂
    cases n with
    | zero => rw [bitLenFuel_zero, bitLenFuel_zero]
    | succ m =>
      cases f₁ with
      | zero => exact absurd h₁ (by omega)
      | succ g₁ =>
        cases f₂ with
        | zero => exact absurd h₂ (by omega)
        | succ g₂ =>
          show bitLenFuel g₁ ((m + 1) / 2) + 1 = bitLenFuel g₂ ((m + 1) / 2) + 1
          have hlt : (m + 1) / 2 < m + 1 :=
            Nat.div_lt_self (Nat.succ_pos m) (by norm_num)
          rw [ih g₁ (by omega) g₂ ((m + 1) / 2) (by omega) (by omega)]

theorem bitLen_zero : bitLen 0 = 0 := rfl

theorem bitLen_pos (n : Nat) (h : 0 < n) : bitLen n = bitLen (n / 2) + 1 := by
  match n, h with
  | m + 1, _ =>
      show bitLenFuel m ((m + 1) / 2) + 1 = _
      have hlt : (m + 1) / 2 < m + 1 := Nat.div_lt_self (Nat.succ_pos m) (by norm_num)
      rw [bitLen, bitLenFuel_congr m ((m + 1) / 2) ((m + 1) / 2) (by omega) le_rfl]

/-- `bitLen` means what "fits in `k` bits" should mean. -/
theorem bitLen_le_iff : ∀ n k : Nat, bitLen n ≤ k ↔ n < 2 ^ k := by
  intro n
  induction n using Nat.strong_induction_on with
  | _ n ih =>
    intro k
    rcases Nat.eq_zero_or_pos n with h0 | hpos
    · subst h0
      simp only [bitLen_zero, Nat.zero_le, true_iff]
      exact Nat.pos_pow_of_pos k (by norm_num)
    · rw [bitLen_pos n hpos]
      match k with
      | 0 =>
          simp only [Nat.pow_zero]
          omega
      | k + 1 =>
          have hlt : n / 2 < n := Nat.div_lt_self hpos (by norm_num)
          rw [Nat.add_le_add_iff_right, ih (n / 2) hlt k,
              Nat.div_lt_iff_lt_mul (by norm_num : 0 < 2), Nat.pow_succ]

theorem beToNat_go (l : List Nat) :
    ∀ a : Nat, l.foldl (fun acc d => acc * 256 + d) a
      = a * 256 ^ l.length + beToNat l := by
  induction l with
  | nil => intro a; simp [beToNat]
  | cons d rest ih =>
      intro a
      have hd : beToNat (d :: rest) = d * 256 ^ rest.length + beToNat rest := by
        simpa [beToNat] using ih d
      simp only [List.foldl_cons, List.length_cons, hd, ih (a * 256 + d)]
      ring

theorem beToNat_natToBE (n : Nat) : beToNat (natToBE n) = n := by
  induction n using Nat.strong_induction_on with
  | _ n ih =>
    rcases Nat.eq_zero_or_pos n with h0 | hpos
    · subst h0; simp [natToBE_zero, beToNat]
    · have hlt : n / 256 < n := Nat.div_lt_self hpos (by norm_num)
      have hrec := ih (n / 256) hlt
      rw [natToBE_pos n hpos]
      simp only [beToNat, List.foldl_append, List.foldl_cons, List.foldl_nil]
      have : (natToBE (n / 256)).foldl (fun acc d => acc * 256 + d) 0
          = n / 256 := hrec
      rw [this]
      exact Nat.div_add_mod' n 256

theorem natToBE_length_le (k : Nat) :
    ∀ n : Nat, n < 256 ^ k → (natToBE n).length ≤ k := by
  induction k with
  | zero =>
      intro n hn
      interval_cases n
      simp [natToBE_zero]
  | succ k ih =>
      intro n hn
      rcases Nat.eq_zero_or_pos n with h0 | hpos
      · subst h0; simp [natToBE_zero]
      · rw [natToBE_pos n hpos]
        have : n / 256 < 256 ^ k := by
          rw [Nat.div_lt_iff_lt_mul (by norm_num : 0 < 256)]
          calc n < 256 ^ (k + 1) := hn
            _ = 256 ^ k * 256 := by ring
        have := ih (n / 256) this
        simp [List.length_append]
        omega

theorem natToBE_head_ne_zero (n : Nat) (hpos : 0 < n) :
    ∃ d ds, natToBE n = d :: ds ∧ d ≠ 0 := by
  induction n using Nat.strong_induction_on with
  | _ n ih =>
    rcases Nat.eq_zero_or_pos (n / 256) with hq | hq
    · refine ⟨n % 256, [], ?_, ?_⟩
      · rw [natToBE_pos n hpos, hq, natToBE_zero]; rfl
      · have hlt : n < 256 := by
          by_contra hle
          have : 0 < n / 256 := Nat.div_pos (by omega) (by norm_num)
          omega
        rw [Nat.mod_eq_of_lt hlt]
        omega
    · obtain ⟨d, ds, hds, hd⟩ :=
        ih (n / 256) (Nat.div_lt_self hpos (by norm_num)) hq
      exact ⟨d, ds ++ [n % 256], by rw [natToBE_pos n hpos, hds]; rfl, hd⟩

theorem decU64_natToBE (n : Nat) (hn : n < 2 ^ 64) : decU64 (natToBE n) = some n := by
  have hlen : (natToBE n).length ≤ 8 :=
    natToBE_length_le 8 n (by norm_num at hn ⊢; exact hn)
  rcases Nat.eq_zero_or_pos n with h0 | hpos
  · subst h0; simp [natToBE_zero, decU64, beToNat]
  · obtain ⟨d, ds, hds, hd⟩ := natToBE_head_ne_zero n hpos
    rw [decU64, if_pos]
    · rw [beToNat_natToBE]
    · refine ⟨hlen, Or.inr ?_⟩
      rw [hds]
      simpa using hd

theorem decBig_natToBE (n : Nat) : decBig (natToBE n) = some n := by
  rcases Nat.eq_zero_or_pos n with h0 | hpos
  · subst h0; simp [natToBE_zero, decBig, beToNat]
  · obtain ⟨d, ds, hds, hd⟩ := natToBE_head_ne_zero n hpos
    rw [decBig, if_pos]
    · rw [beToNat_natToBE]
    · refine Or.inr ?_
      rw [hds]
      simpa using hd

/-! ### Round-trip lemmas for the field-level encoders -/

theorem decOptAddr_encOptAddr (o : Option Address) :
    decOptAddr (encOptAddr o) = some o := by
  match o with
  | none => rfl
  | some ⟨l, hl⟩ =>
      match l, hl with
      | x :: xs, hl => simp [encOptAddr, decOptAddr, hl]

theorem decOptHash_encOptHash (o : Option Hash256) :
    decOptHash (encOptHash o) = some o := by
  match o with
  | none => rfl
  | some ⟨l, hl⟩ =>
      match l, hl with
      | x :: xs, hl => simp [encOptHash, decOptHash, hl]

theorem decClause_encClause (c : Clause) : decClause (encClause c) = some c := by
  simp [encClause, decClause, decOptAddr_encOptAddr, decBig_natToBE]

theorem decClauses_map_encClause (cs : List Clause) :
    decClauses (cs.map encClause) = some cs := by
  induction cs with
  | nil => rfl
  | cons c rest ih => simp [decClauses, decClause_encClause, ih]

theorem decTxBody_encTxBody (b : TxBody) (hwf : b.WF) :
    decTxBody (encTxBody b) = some b := by
  obtain ⟨hg, hn, ht⟩ := hwf
  simp [encTxBody, decTxBody, decClauses_map_encClause, decBig_natToBE,
        decU64_natToBE _ hg, decU64_natToBE _ hn, decU64_natToBE _ ht,
        decOptHash_encOptHash]

theorem decodeItem_encodeItem (t : Transaction) (hwf : t.WF) :
    Transaction.decodeItem t.encodeItem = some ⟨t.body, none⟩ := by
  simp [Transaction.decodeItem, Transaction.encodeItem,
        decTxBody_encTxBody t.body hwf]

theorem decHeader_encHeader (h : Header) : decHeader (encHeader h) = some h := rfl

theorem decTxs_map_encodeItem (ts : List Transaction) (hwf : ∀ t ∈ ts, t.WF) :
    decTxs (ts.map Transaction.encodeItem)
      = some (ts.map fun t => ⟨t.body, none⟩) := by
  induction ts with
  | nil => rfl
  | cons t rest ih =>
      have h1 : t.WF := hwf t (by simp)
      have h2 : ∀ u ∈ rest, u.WF := fun u hu => hwf u (by simp [hu])
      simp [decTxs, decodeItem_encodeItem t h1, ih h2]

theorem blockDecodeItem_encodeItem (b : Block) (hwf : b.WF) :
    Block.decodeItem b.encodeItem
      = some ⟨b.header, b.txs.map fun t => ⟨t.body, none⟩, none⟩ := by
  simp [Block.decodeItem, Block.encodeItem, decHeader_encHeader,
        decTxs_map_encodeItem b.txs hwf]

/-! ### The counting sink computes the serialized length -/

theorem length_lengthPrefix (base len : Nat) :
    (lengthPrefix base len).length
      = if len ≤ 55 then 1 else 1 + (natToBE len).length := by
  by_cases h : len ≤ 55 <;> simp [lengthPrefix, h]
  omega

theorem countBytesRLP_eq (bs : List Nat) :
    countBytesRLP bs = (encodeBytesRLP bs).length := by
  match bs with
  | [] => rfl
  | [b] =>
      by_cases h : b < 128 <;> simp [countBytesRLP, encodeBytesRLP, h, lengthPrefix]
  | a :: c :: rest =>
      simp [countBytesRLP, encodeBytesRLP, length_lengthPrefix]

mutual

theorem serializeCount_eq : ∀ it : Item, serializeCount it = (serialize it).length
  | .bytes bs => by
      simp [serializeCount, serialize, countBytesRLP_eq]
  | .list items => by
      have h := serializeCountList_eq items
      simp only [serializeCount, serialize, List.length_append,
                 length_lengthPrefix, h]

theorem serializeCountList_eq :
    ∀ its : List Item, serializeCountList its = (serializeList its).length
  | [] => by simp [serializeCountList, serializeList]
  | i :: rest => by
      have h1 := serializeCount_eq i
      have h2 := serializeCountList_eq rest
      simp [serializeCountList, serializeList, h1, h2]

end

/-! ### Accumulation facts for the intrinsic-gas loop -/

/-- Every clause's own intrinsic gas dominates the discount subtracted for
it: the gas schedule puts the per-clause base costs exactly 5000 below the
corresponding transaction-level base cost, and the clause's intrinsic gas
contains the full transaction-level base cost. -/
theorem clauseDiscount_le_coreIntrinsicGas (c : Clause) :
    clauseDiscount c ≤ coreIntrinsicGas c.data c.To.isNone := by
  unfold clauseDiscount coreIntrinsicGas
  cases c.To.isNone <;>
    simp [txGas, clauseGas, txGasContractCreation, clauseGasContractCreation,
          txDataNonZeroGas, txDataZeroGas] <;>
    omega

/-- Each step of the intrinsic-gas fold never decreases the accumulator. -/
theorem le_foldl_intrinsicStep (l : List Clause) :
    ∀ a : Int, a ≤ l.foldl intrinsicStep a := by
  induction l with
  | nil => intro a; simp
  | cons c rest ih =>
      intro a
      have h1 : a ≤ intrinsicStep a c := by
        have h2 : (clauseDiscount c : Int)
            ≤ (coreIntrinsicGas c.data c.To.isNone : Int) := by
          exact_mod_cast clauseDiscount_le_coreIntrinsicGas c
        unfold intrinsicStep
        omega
      rw [List.foldl_cons]
      exact le_trans h1 (ih _)

/-- The accumulation step depends only on a clause's data and
creation flag. -/
theorem intrinsicStep_congr (a : Int) (c₁ c₂ : Clause)
    (hd : c₁.data = c₂.data) (hn : c₁.To.isNone = c₂.To.isNone) :
    intrinsicStep a c₁ = intrinsicStep a c₂ := by
  unfold intrinsicStep clauseDiscount coreIntrinsicGas
  rw [hd, hn]

/-- The intrinsic-gas fold depends only on the clauses' data and creation
flags. -/
theorem foldl_intrinsicStep_congr :
    ∀ l₁ l₂ : List Clause,
      l₁.map (fun c => (c.data, c.To.isNone))
        = l₂.map (fun c => (c.data, c.To.isNone)) →
      ∀ a : Int, l₁.foldl intrinsicStep a = l₂.foldl intrinsicStep a := by
  intro l₁
  induction l₁ with
  | nil =>
      intro l₂ h a
      cases l₂ with
      | nil => rfl
      | cons => simp at h
  | cons c₁ rest₁ ih =>
      intro l₂ h a
      cases l₂ with
      | nil => simp at h
      | cons c₂ rest₂ =>
          simp only [List.map_cons, List.cons.injEq, Prod.mk.injEq] at h
          obtain ⟨⟨hd, hn⟩, htail⟩ := h
          rw [List.foldl_cons, List.foldl_cons,
              intrinsicStep_congr a c₁ c₂ hd hn, ih rest₂ htail _]

/-- `IntrinsicGas` depends only on the clauses' data and creation flags. -/
theorem intrinsicGas_congr (t₁ t₂ : Transaction)
    (h : t₁.body.clauses.map (fun c => (c.data, c.To.isNone))
       = t₂.body.clauses.map (fun c => (c.data, c.To.isNone))) :
    t₁.intrinsicGas = t₂.intrinsicGas := by
  obtain ⟨⟨cls₁, gp₁, g₁, n₁, tb₁, dep₁, sig₁⟩, cache₁⟩ := t₁
  obtain ⟨⟨cls₂, gp₂, g₂, n₂, tb₂, dep₂, sig₂⟩, cache₂⟩ := t₂
  simp only at h
  cases cls₁ with
  | nil =>
      cases cls₂ with
      | nil => rfl
      | cons => simp at h
  | cons f₁ r₁ =>
      cases cls₂ with
      | nil => simp at h
      | cons f₂ r₂ =>
          simp only [List.map_cons, List.cons.injEq, Prod.mk.injEq] at h
          obtain ⟨⟨hd, hn⟩, htail⟩ := h
          show (if 64 < bitLen (List.foldl intrinsicStep
                  ((coreIntrinsicGas f₁.data f₁.To.isNone : Nat) : Int) r₁).natAbs
                then Except.error "intrinsic gas too large"
                else Except.ok (List.foldl intrinsicStep
                  ((coreIntrinsicGas f₁.data f₁.To.isNone : Nat) : Int) r₁).natAbs)
              = (if 64 < bitLen (List.foldl intrinsicStep
                  ((coreIntrinsicGas f₂.data f₂.To.isNone : Nat) : Int) r₂).natAbs
                then Except.error "intrinsic gas too large"
                else Except.ok (List.foldl intrinsicStep
                  ((coreIntrinsicGas f₂.data f₂.To.isNone : Nat) : Int) r₂).natAbs)
          rw [hd, hn, foldl_intrinsicStep_congr r₁ r₂ htail]

/-! ### The claims -/

/-- C7: for every transaction whose clause list is empty, `IntrinsicGas`
succeeds and returns the flat base transaction gas constant. -/
theorem intrinsicGas_empty_clauses (t : Transaction)
    (h : t.body.clauses = []) : t.intrinsicGas = .ok txGas := by
  obtain ⟨⟨cls, gp, g, n, tb, dep, sig⟩, cache⟩ := t
  simp only at h
  subst h
  rfl

/-- Witness for C7 at a concrete clause-free transaction. -/
theorem intrinsicGas_empty_clauses_witness :
    Transaction.intrinsicGas ⟨⟨[], 0, 0, 0, 0, none, []⟩, none⟩ = .ok txGas :=
  intrinsicGas_empty_clauses ⟨⟨[], 0, 0, 0, 0, none, []⟩, none⟩ rfl

/-- C1: a transaction with `N` identical non-creation clauses with empty
data has intrinsic gas `txGas + (N - 1) * clauseGas` for `N = 1, 2, 3`;
with one clause it is exactly 21000, and every further identical clause
adds only the reduced per-clause call cost `clauseGas < txGas`, not
another full 21000. -/
theorem intrinsicGas_multi_clause_discount (c : Clause) (gp g n tb : Nat)
    (dep : Option Hash256) (sig : List Nat) (cache : Option Hash256)
    (hTo : c.To.isSome = true) (hData : c.data = []) :
    Transaction.intrinsicGas ⟨⟨List.replicate 1 c, gp, g, n, tb, dep, sig⟩, cache⟩
        = .ok (txGas + 0 * clauseGas)
    ∧ Transaction.intrinsicGas ⟨⟨List.replicate 2 c, gp, g, n, tb, dep, sig⟩, cache⟩
        = .ok (txGas + 1 * clauseGas)
    ∧ Transaction.intrinsicGas ⟨⟨List.replicate 3 c, gp, g, n, tb, dep, sig⟩, cache⟩
        = .ok (txGas + 2 * clauseGas)
    ∧ txGas = 21000
    ∧ clauseGas < txGas := by
  obtain ⟨cTo, cv, cd⟩ := c
  simp only at hTo hData
  subst hData
  cases cTo with
  | none => simp at hTo
  | some a =>
      refine ⟨?_, ?_, ?_, rfl, by norm_num [clauseGas, txGas]⟩
      · rw [intrinsicGas_congr
            ⟨⟨List.replicate 1 ⟨some a, cv, []⟩, gp, g, n, tb, dep, sig⟩, cache⟩
            ⟨⟨List.replicate 1 ⟨some sampleAddress, 0, []⟩, 0, 0, 0, 0, none, []⟩,
              none⟩ rfl]
        rfl
      · rw [intrinsicGas_congr
            ⟨⟨List.replicate 2 ⟨some a, cv, []⟩, gp, g, n, tb, dep, sig⟩, cache⟩
            ⟨⟨List.replicate 2 ⟨some sampleAddress, 0, []⟩, 0, 0, 0, 0, none, []⟩,
              none⟩ rfl]
        rfl
      · rw [intrinsicGas_congr
            ⟨⟨List.replicate 3 ⟨some a, cv, []⟩, gp, g, n, tb, dep, sig⟩, cache⟩
            ⟨⟨List.replicate 3 ⟨some sampleAddress, 0, []⟩, 0, 0, 0, 0, none, []⟩,
              none⟩ rfl]
        rfl

/-- Witness for C1 at a concrete clause: two identical call clauses with
empty data cost `txGas + clauseGas`. -/
theorem intrinsicGas_multi_clause_discount_witness :
    Transaction.intrinsicGas
        ⟨⟨List.replicate 2 sampleClause, 0, 0, 0, 0, none, []⟩, none⟩
      = .ok (txGas + 1 * clauseGas) :=
  (intrinsicGas_multi_clause_discount sampleClause 0 0 0 0 none [] none
    rfl rfl).2.1

/-- C5: `IntrinsicGas` fails (with the gas-too-large error) exactly when
the accumulated arbitrary-precision total needs more than 64 bits, and
otherwise returns the total narrowed to a 64-bit unsigned integer. -/
theorem intrinsicGas_gasTooLarge_iff (t : Transaction) :
    ((∃ e, t.intrinsicGas = .error e)
        ↔ 2 ^ 64 ≤ (intrinsicGasTotal t).natAbs)
    ∧ ((intrinsicGasTotal t).natAbs < 2 ^ 64 →
        t.intrinsicGas = .ok (intrinsicGasTotal t).natAbs) := by
  obtain ⟨⟨cls, gp, g, n, tb, dep, sig⟩, cache⟩ := t
  cases cls with
  | nil =>
      have h21 : (intrinsicGasTotal
          ⟨⟨[], gp, g, n, tb, dep, sig⟩, cache⟩).natAbs = 21000 := rfl
      refine ⟨⟨fun ⟨e, he⟩ => absurd he (by simp [Transaction.intrinsicGas]),
              fun hge => absurd hge (by omega)⟩, fun _ => ?_⟩
      show Except.ok txGas = _
      rw [h21]
      rfl
  | cons first rest =>
      have hgas : Transaction.intrinsicGas
            ⟨⟨first :: rest, gp, g, n, tb, dep, sig⟩, cache⟩
          = if 64 < bitLen (rest.foldl intrinsicStep
                ((coreIntrinsicGas first.data first.To.isNone : Nat) : Int)).natAbs
            then .error "intrinsic gas too large"
            else .ok (rest.foldl intrinsicStep
                ((coreIntrinsicGas first.data first.To.isNone : Nat) : Int)).natAbs := rfl
      have htot : intrinsicGasTotal ⟨⟨first :: rest, gp, g, n, tb, dep, sig⟩, cache⟩
          = rest.foldl intrinsicStep
              ((coreIntrinsicGas first.data first.To.isNone : Nat) : Int) := rfl
      rw [hgas, htot]
      generalize (rest.foldl intrinsicStep
        ((coreIntrinsicGas first.data first.To.isNone : Nat) : Int)) = F
      by_cases hbit : 64 < bitLen F.natAbs
      · rw [if_pos hbit]
        have hge : 2 ^ 64 ≤ F.natAbs := by
          by_contra hlt
          have h1 : F.natAbs < 2 ^ 64 := by omega
          have h2 := (bitLen_le_iff F.natAbs 64).mpr h1
          omega
        exact ⟨⟨fun _ => hge, fun _ => ⟨_, rfl⟩⟩, fun hlt => absurd hlt (by omega)⟩
      · rw [if_neg hbit]
        have hlt : F.natAbs < 2 ^ 64 := (bitLen_le_iff F.natAbs 64).mp (by omega)
        exact ⟨⟨fun ⟨e, he⟩ => by simp at he, fun hge => absurd hge (by omega)⟩,
               fun _ => rfl⟩

/-- Witness for C5 at a concrete two-clause transaction: the total fits in
64 bits and is returned narrowed. -/
theorem intrinsicGas_gasTooLarge_iff_witness :
    Transaction.intrinsicGas (sampleTx [sampleClause, sampleClause])
      = .ok (intrinsicGasTotal (sampleTx [sampleClause, sampleClause])).natAbs :=
  (intrinsicGas_gasTooLarge_iff (sampleTx [sampleClause, sampleClause])).2
    (by decide)

/-- C10: in `IntrinsicGas` the discount subtracted for each clause is
bounded by the gas that same clause adds, the running arbitrary-precision
total stays non-negative after every prefix of the subsequent clauses, and
therefore the final narrowing of the total to an unsigned 64-bit value
under the bit-length check is exact. -/
theorem intrinsicGas_total_nonneg (t : Transaction) (first : Clause)
    (rest : List Clause) (h : t.body.clauses = first :: rest) :
    (∀ c : Clause,
        (clauseDiscount c : Int) ≤ (coreIntrinsicGas c.data c.To.isNone : Int))
    ∧ (∀ pre suf : List Clause, rest = pre ++ suf →
        0 ≤ pre.foldl intrinsicStep
          ((coreIntrinsicGas first.data first.To.isNone : Nat) : Int))
    ∧ ((intrinsicGasTotal t).natAbs : Int) = intrinsicGasTotal t := by
  refine ⟨fun c => by exact_mod_cast clauseDiscount_le_coreIntrinsicGas c,
          fun pre suf hps => ?_, ?_⟩
  · exact le_trans (Int.natCast_nonneg _) (le_foldl_intrinsicStep pre _)
  · have htot : intrinsicGasTotal t
        = rest.foldl intrinsicStep
            ((coreIntrinsicGas first.data first.To.isNone : Nat) : Int) := by
      unfold intrinsicGasTotal
      rw [h]
    have h0 : 0 ≤ intrinsicGasTotal t := by
      rw [htot]
      exact le_trans (Int.natCast_nonneg _) (le_foldl_intrinsicStep rest _)
    exact Int.natAbs_of_nonneg h0

/-- Witness for C10 at a concrete two-clause transaction: the narrowing of
its accumulated total is exact. -/
theorem intrinsicGas_total_nonneg_witness :
    ((intrinsicGasTotal (sampleTx [sampleClause, sampleClause])).natAbs : Int)
      = intrinsicGasTotal (sampleTx [sampleClause, sampleClause]) :=
  (intrinsicGas_total_nonneg (sampleTx [sampleClause, sampleClause])
    sampleClause [sampleClause] rfl).2.2

/-- C2: decoding the canonical encoding of any well-formed transaction or
block succeeds and yields a value logically equal to the original — the
caches (reset by decoding) are irrelevant to the equality. -/
theorem encode_decode_roundtrip (t : Transaction) (b : Block)
    (ht : t.WF) (hb : b.WF) :
    (∃ t', Transaction.decodeItem t.encodeItem = some t' ∧ t'.LogicalEq t)
    ∧ (∃ b', Block.decodeItem b.encodeItem = some b' ∧ b'.LogicalEq b) := by
  refine ⟨⟨⟨t.body, none⟩, decodeItem_encodeItem t ht, rfl⟩,
          ⟨_, blockDecodeItem_encodeItem b hb, rfl, ?_⟩⟩
  simp [List.map_map, Function.comp]

/-- Witness for C2 at a concrete transaction (with `depends_on` and a
signature present) and a concrete block. -/
theorem encode_decode_roundtrip_witness :
    (∃ t', Transaction.decodeItem
        (Transaction.encodeItem
          ⟨⟨[sampleClause], 3, 4, 5, 6, some ⟨List.replicate 32 7, by simp⟩,
            [8, 9]⟩, none⟩) = some t'
      ∧ t'.LogicalEq
          ⟨⟨[sampleClause], 3, 4, 5, 6, some ⟨List.replicate 32 7, by simp⟩,
            [8, 9]⟩, none⟩)
    ∧ (∃ b', Block.decodeItem (Block.encodeItem sampleBlock) = some b'
        ∧ b'.LogicalEq sampleBlock) :=
  encode_decode_roundtrip
    ⟨⟨[sampleClause], 3, 4, 5, 6, some ⟨List.replicate 32 7, by simp⟩,
      [8, 9]⟩, none⟩
    sampleBlock (by decide) (by decide)

/-- C3: `WithSignature` preserves the signing hash (for every choice of the
external hash primitive), shares every unsigned field with the receiver,
and replaces only the signature; the receiver itself is a pure value and is
never mutated — the new transaction is a fresh instance. -/
theorem withSignature_preserves_signingHash (H : List Nat → Hash256)
    (t : Transaction) (s : List Nat) :
    Transaction.signingHash H (t.withSignature s) = Transaction.signingHash H t
    ∧ (t.withSignature s).body.clauses = t.body.clauses
    ∧ (t.withSignature s).body.gasPrice = t.body.gasPrice
    ∧ (t.withSignature s).body.gas = t.body.gas
    ∧ (t.withSignature s).body.nonce = t.body.nonce
    ∧ (t.withSignature s).body.timeBarrier = t.body.timeBarrier
    ∧ (t.withSignature s).body.dependsOn = t.body.dependsOn
    ∧ (t.withSignature s).body.signature = s :=
  ⟨rfl, rfl, rfl, rfl, rfl, rfl, rfl, rfl⟩

/-- C4: the signing hash is the hash of the canonical encoding of exactly
the ordered six-field tuple `[clauses, gas_price, gas, nonce, time_barrier,
depends_on]` — the signature is excluded — so transactions agreeing on
those six fields (whatever their signatures) have the same signing hash. -/
theorem signingHash_excludes_signature (H : List Nat → Hash256)
    (t₁ t₂ : Transaction)
    (hc : t₁.body.clauses = t₂.body.clauses)
    (hgp : t₁.body.gasPrice = t₂.body.gasPrice)
    (hg : t₁.body.gas = t₂.body.gas)
    (hn : t₁.body.nonce = t₂.body.nonce)
    (htb : t₁.body.timeBarrier = t₂.body.timeBarrier)
    (hd : t₁.body.dependsOn = t₂.body.dependsOn) :
    Transaction.signingHash H t₁
        = H (serialize (.list [.list (t₁.body.clauses.map encClause),
              .bytes (natToBE t₁.body.gasPrice),
              .bytes (natToBE t₁.body.gas),
              .bytes (natToBE t₁.body.nonce),
              .bytes (natToBE t₁.body.timeBarrier),
              encOptHash t₁.body.dependsOn]))
    ∧ Transaction.signingHash H t₁ = Transaction.signingHash H t₂ := by
  refine ⟨rfl, ?_⟩
  unfold Transaction.signingHash Transaction.signingItem
  rw [hc, hgp, hg, hn, htb, hd]

/-- Witness for C4: two concrete transactions that differ only in their
signatures have the same signing hash. -/
theorem signingHash_excludes_signature_witness :
    Transaction.signingHash constHash
        ⟨⟨[sampleClause], 3, 4, 5, 6, none, [1, 1, 1]⟩, none⟩
      = Transaction.signingHash constHash
        ⟨⟨[sampleClause], 3, 4, 5, 6, none, [2, 2]⟩, none⟩ :=
  (signingHash_excludes_signature constHash
    ⟨⟨[sampleClause], 3, 4, 5, 6, none, [1, 1, 1]⟩, none⟩
    ⟨⟨[sampleClause], 3, 4, 5, 6, none, [2, 2]⟩, none⟩
    rfl rfl rfl rfl rfl rfl).2

/-- C6: decoding is atomic for transactions and blocks alike — it either
succeeds with a complete fresh instance that does not depend on the
receiver, or fails with a decode error and leaves the receiver exactly as
it was (the source decodes into a fresh temporary before overwriting). -/
theorem decode_atomic (i : Item) (t t' : Transaction) (b b' : Block) :
    ((∃ x, Transaction.decodeItem i = some x
        ∧ t.decodeRLP i = (x, none) ∧ t'.decodeRLP i = (x, none))
      ∨ (Transaction.decodeItem i = none
        ∧ t.decodeRLP i = (t, some "rlp: decode error")
        ∧ t'.decodeRLP i = (t', some "rlp: decode error")))
    ∧ ((∃ y, Block.decodeItem i = some y
        ∧ b.decodeRLP i = (y, none) ∧ b'.decodeRLP i = (y, none))
      ∨ (Block.decodeItem i = none
        ∧ b.decodeRLP i = (b, some "rlp: decode error")
        ∧ b'.decodeRLP i = (b', some "rlp: decode error"))) := by
  constructor
  · cases h : decTxBody i with
    | some bd =>
        exact Or.inl ⟨⟨bd, none⟩, by simp [Transaction.decodeItem, h],
          by simp [Transaction.decodeRLP, h], by simp [Transaction.decodeRLP, h]⟩
    | none =>
        exact Or.inr ⟨by simp [Transaction.decodeItem, h],
          by simp [Transaction.decodeRLP, h], by simp [Transaction.decodeRLP, h]⟩
  · cases h : Block.decodeItem i with
    | some bb =>
        exact Or.inl ⟨bb, rfl, by simp [Block.decodeRLP, h],
          by simp [Block.decodeRLP, h]⟩
    | none =>
        exact Or.inr ⟨rfl, by simp [Block.decodeRLP, h],
          by simp [Block.decodeRLP, h]⟩

/-- C9: a block's `Size` (under a truthful cache) is the byte length of its
own canonical encoding; the size of `WithSignature`'s result is computed
from that new instance's own encoding, regardless of anything cached on the
receiver (whose cache slot it never reads), and it can differ from the
receiver's size. -/
theorem block_size_own_encoding :
    (∀ bl : Block, bl.SizeCacheValid → bl.size = (serialize bl.encodeItem).length)
    ∧ (∀ (bl : Block) (s : List Nat),
        (bl.withSignature s).size
          = (serialize (bl.withSignature s).encodeItem).length)
    ∧ (∀ (bl : Block) (s : List Nat) (n : Nat),
        ((Block.mk bl.header bl.txs (some n)).withSignature s).size
          = (bl.withSignature s).size)
    ∧ ((Block.mk ⟨[], []⟩ [] none).withSignature [1, 2, 3]).size
        ≠ (Block.mk ⟨[], []⟩ [] none).size := by
  refine ⟨?_, ?_, fun bl s _ => rfl, by decide⟩
  · intro bl hv
    cases hcs : bl.cacheSize with
    | none => simp [Block.size, hcs, serializeCount_eq]
    | some n => simp [Block.size, hcs, hv n hcs, serializeCount_eq]
  · intro bl s
    show serializeCount _ = _
    exact serializeCount_eq _

/-- Witness for C9 at a concrete block with an unset cache. -/
theorem block_size_own_encoding_witness :
    sampleBlock.size = (serialize sampleBlock.encodeItem).length :=
  block_size_own_encoding.1 sampleBlock (fun _ h => Option.noConfusion h)

end Thor
